import Mathlib

/-!
Verification of the Lenia cellular-automaton core (ljhowell/lenia-lh).

A shallow embedding of the simulation core of the repository:

* `Growth_fn.py` — the growth functions (`growth_conway`, `growth_bosco`);
* `Kernel.py`   — kernel construction (`square_kernel`, `circular_kernel`,
  `ring_kernel`, `smooth_ring_kernel`);
* `Automaton.py` — kernel normalisation (`normalise_kernel`) and the
  per-step update (`update_convolutional`);
* `Board.py`    — board initialisation (`intialise_board`, sparse mode).

Python floats are modelled as exact rationals `ℚ` (the smooth-ring kernel,
whose values involve `exp` and `sqrt`, is modelled over `ℝ`).  Machine
NaN/Inf behaviour of a division by zero is outside the rational model; where
it matters (kernel normalisation on a zero kernel) the development proves
that the code completes normally and returns a value, which is the decisive
fact.  A Python function that can signal failure is embedded with an
explicit outcome type: `Except PyErr _` distinguishes a raised exception
(`.error`) from a normal return (`.ok`); `Option` inside `.ok` distinguishes
`return None` from returning an array.

Boards are indexed by `ZMod H × ZMod W`, which makes the periodic (wrap)
boundary of `scipy.signal.convolve2d` with boundary wrap the ordinary
ring arithmetic of the index type.  Kernels and other plain 2-D arrays are
a size-annotated function `Arr2`.
-/

/-- The error taxonomy named by the specification (§7).  The reference code
under `src/` never raises either of these; the constructors exist so that
claims about raising can be stated and settled. -/
inductive PyErr : Type where
  | shapeError : PyErr
  | degenerateKernelError : PyErr
deriving DecidableEq, Repr

/-- A 2-D array of rationals: the number of rows and columns together with
the entry function (meaningful on indices `i < rows`, `j < cols`; numpy
arrays are row-major). -/
structure Arr2 : Type where
  rows : ℕ
  cols : ℕ
  val : ℕ → ℕ → ℚ

/-- Sum of all entries of an `Arr2` (`np.sum`). -/
def Arr2.sum (a : Arr2) : ℚ :=
  ∑ i ∈ Finset.range a.rows, ∑ j ∈ Finset.range a.cols, a.val i j

/-- All in-range entries of the array lie in the closed interval `[lo, hi]`. -/
def Arr2.valsIn (a : Arr2) (lo hi : ℚ) : Prop :=
  ∀ i < a.rows, ∀ j < a.cols, lo ≤ a.val i j ∧ a.val i j ≤ hi

instance (a : Arr2) (lo hi : ℚ) : Decidable (a.valsIn lo hi) := by
  unfold Arr2.valsIn; infer_instance

namespace Growth_fn

/-! ## `src/lenia_lh/Growth_fn.py`

The growth functions map a neighbourhood sum `U` to a signed delta.  The
Python code builds the result arithmetically from boolean masks
(`True = 1`, `False = 0`). -/

/-- Python `Growth_fn.growth_conway`:
`return 0 + (U==3) - ((U<2)|(U>3))` (Growth_fn.py line 51). -/
def growth_conway (U : ℚ) : ℚ :=
  0 + (if U = 3 then 1 else 0) - (if U < 2 ∨ U > 3 then 1 else 0)

/-- Python `Growth_fn.growth_bosco`:
`return 0 + ((U>=self.b1)&(U<self.b2)) - ((U<self.s1)|(U>=self.s2))`
(Growth_fn.py line 62). -/
def growth_bosco (b1 b2 s1 s2 : ℚ) (U : ℚ) : ℚ :=
  0 + (if b1 ≤ U ∧ U < b2 then 1 else 0) - (if U < s1 ∨ s2 ≤ U then 1 else 0)

/-- Default Bosco parameter `self.b1 = 2*0.125` (Growth_fn.py line 25). -/
def default_b1 : ℚ := 2 * 0.125

/-- Default Bosco parameter `self.b2 = 4*0.125` (Growth_fn.py line 26). -/
def default_b2 : ℚ := 4 * 0.125

/-- Default Bosco parameter `self.s1 = 3*0.125` (Growth_fn.py line 27). -/
def default_s1 : ℚ := 3 * 0.125

/-- Default Bosco parameter `self.s2 = 4*0.125` (Growth_fn.py line 28). -/
def default_s2 : ℚ := 4 * 0.125

end Growth_fn

namespace Kernel

/-! ## `src/Kernel.py` -/

/-- Python `Kernel.square_kernel(outer_diameter, inner_diameter)`: an
`outer × outer` array of ones minus a centred `inner × inner` block of ones
(`np.pad` by `(outer-inner)//2` on each side).  On a parity mismatch or
`outer ≤ inner` the Python prints an error message and executes
`return None`: that path is `.ok none`.  No path raises, so no input
produces `.error`. -/
def square_kernel (outer_diameter inner_diameter : ℕ) : Except PyErr (Option Arr2) :=
  if ¬(outer_diameter % 2 = inner_diameter % 2) then Except.ok none
  else if outer_diameter ≤ inner_diameter then Except.ok none
  else
    let p := (outer_diameter - inner_diameter) / 2
    Except.ok (some ⟨outer_diameter, outer_diameter, fun i j =>
      1 - (if p ≤ i ∧ i < p + inner_diameter ∧ p ≤ j ∧ j < p + inner_diameter
           then 1 else 0)⟩)

/-- Python `Kernel.circular_kernel(diameter)` (without `invert`): binary mask of the
cells whose Euclidean distance from the centre `mid = (diameter-1)/2` is at
most `diameter/2`; the comparison `‖·‖ - d/2 ≤ 0` is stated on squares to
stay in `ℚ` (both sides are non-negative, so the two forms agree). -/
def circular_kernel (diameter : ℕ) : Arr2 :=
  ⟨diameter, diameter, fun i j =>
    let mid : ℚ := ((diameter : ℚ) - 1) / 2
    if ((i : ℚ) - mid) ^ 2 + ((j : ℚ) - mid) ^ 2 ≤ ((diameter : ℚ) / 2) ^ 2
    then 1 else 0⟩

/-- Python `Kernel.ring_kernel(outer_diameter, inner_diameter)`:
`circular_kernel(outer) - pad(circular_kernel(inner), (outer-inner)//2)`.
On a parity mismatch the Python prints and executes `return None`
(`= .ok none`); no path raises. -/
def ring_kernel (outer_diameter inner_diameter : ℕ) : Except PyErr (Option Arr2) :=
  if ¬(outer_diameter % 2 = inner_diameter % 2) then Except.ok none
  else
    let p := (outer_diameter - inner_diameter) / 2
    let inner := circular_kernel inner_diameter
    let outer := circular_kernel outer_diameter
    Except.ok (some ⟨outer_diameter, outer_diameter, fun i j =>
      outer.val i j -
        (if p ≤ i ∧ i < p + inner_diameter ∧ p ≤ j ∧ j < p + inner_diameter
         then inner.val (i - p) (j - p) else 0)⟩)

end Kernel

namespace Automaton

/-! ## `src/Automaton.py` -/

open Growth_fn

/-- The pointwise result of `self.kernel / (1*np.sum(self.kernel))`. -/
def normalised (k : Arr2) : Arr2 :=
  ⟨k.rows, k.cols, fun i j => k.val i j / (1 * k.sum)⟩

/-- Python `Automaton.normalise_kernel` (Automaton.py lines 83 to 95): divides every
weight by the raw sum and keeps `norm_factor = 1/(1*sum)`.  The Python body
contains no `raise` and no guard, so every input reaches the normal
`return`: the result is always `.ok`.  (In Python a zero raw sum silently
produces NaN/Inf weights by IEEE division; in this rational model `x / 0`
is the total function of `ℚ`.) -/
def normalise_kernel (k : Arr2) : Except PyErr (Arr2 × ℚ) :=
  Except.ok (normalised k, 1 / (1 * k.sum))

/-- Python `np.clip(x, 0, 1)`. -/
def clip01 (x : ℚ) : ℚ := min (max x 0) 1

/-- Embeds `scipy.signal.convolve2d(board, kernel, mode same, boundary wrap)`
for an `H × W` board and a `kh × kw` kernel.  The full convolution is
`F[n] = Σ_m board[m]·kernel[n-m]`; mode same keeps the centred `H × W`
block starting at offset `(kh-1)//2`, and boundary wrap extends the
board periodically.  Hence
`out[i,j] = Σ_{p<kh} Σ_{q<kw} kernel[p,q] · board[i+(kh-1)/2-p, j+(kw-1)/2-q]`
with the board indices taken on the torus, which is exactly arithmetic in
`ZMod H × ZMod W`. -/
def convolve2d_wrap {H W : ℕ} (board : ZMod H → ZMod W → ℚ)
    (kh kw : ℕ) (k : ℕ → ℕ → ℚ) : ZMod H → ZMod W → ℚ :=
  fun x y =>
    ∑ p ∈ Finset.range kh, ∑ q ∈ Finset.range kw,
      k p q * board (x + (((kh - 1) / 2 : ℕ) : ZMod H) - (p : ZMod H))
                    (y + (((kw - 1) / 2 : ℕ) : ZMod W) - (q : ZMod W))

/-- Python `Automaton.update_convolutional` (Automaton.py lines 147 to 169):
`neighbours = convolve2d(board, kernel, mode same, boundary wrap)`;
`board = np.clip(board + dT * growth(neighbours), 0, 1)`. -/
def update_convolutional {H W : ℕ} (board : ZMod H → ZMod W → ℚ)
    (kh kw : ℕ) (k : ℕ → ℕ → ℚ) (growth : ℚ → ℚ) (dT : ℚ) :
    ZMod H → ZMod W → ℚ :=
  fun x y => clip01 (board x y + dT * growth (convolve2d_wrap board kh kw k x y))

end Automaton

namespace Kernel

/-- Gaussian bell used by `Kernel.smooth_ring_kernel`:
`gaussian = lambda x, m, s: np.exp(-( (x-m)**2 / (2*s**2) ))`
(Kernel.py line 140). -/
noncomputable def gaussian_bell (x m s : ℝ) : ℝ :=
  Real.exp (-((x - m) ^ 2 / (2 * s ^ 2)))

/-- Row/column count of the array produced by `Kernel.smooth_ring_kernel`:
`np.ogrid[-R:R-1, -R:R-1]` with `R = diameter/2 + 1` yields `diameter + 1`
samples per axis (for even and for odd diameters alike). -/
def smooth_ring_size (diameter : ℕ) : ℕ := diameter + 1

/-- Entry `(i, j)` of the kernel built by `Kernel.smooth_ring_kernel`
(Kernel.py lines 123 to 143):
`R = (diameter / 2) + 1`;
`D = np.linalg.norm(np.asarray(np.ogrid[-R:R-1, -R:R-1]) + 1) / R`;
`return (D<1) * gaussian(D, mu, sigma)`.
The grid offsets `np.ogrid[-R:R-1] + 1` are `i - diameter/2` for
`i = 0, ..., diameter`, so the centre is at `(diameter/2, diameter/2)`. -/
noncomputable def smooth_ring_val (diameter : ℕ) (mu sigma : ℝ) (i j : ℕ) : ℝ :=
  let R : ℝ := (diameter : ℝ) / 2 + 1
  let D : ℝ := Real.sqrt (((i : ℝ) - (diameter : ℝ) / 2) ^ 2 +
                          ((j : ℝ) - (diameter : ℝ) / 2) ^ 2) / R
  (if D < 1 then 1 else 0) * gaussian_bell D mu sigma

/-- Follows the words of the specification for `buildSmoothRing` (§4.1):
radial distance `D` normalized at radius `diameter/2`; output
`exp(-(D-mu)^2/(2*sigma^2))` where `D < 1`, else `0`.  Stated only to be
compared with the source definition `smooth_ring_val`. -/
noncomputable def smooth_ring_spec_val (diameter : ℕ) (mu sigma : ℝ) (i j : ℕ) : ℝ :=
  let D : ℝ := Real.sqrt (((i : ℝ) - (diameter : ℝ) / 2) ^ 2 +
                          ((j : ℝ) - (diameter : ℝ) / 2) ^ 2) / ((diameter : ℝ) / 2)
  if D < 1 then Real.exp (-((D - mu) ^ 2 / (2 * sigma ^ 2))) else 0

end Kernel

namespace Board

/-! ## `src/lenia_lh/Board.py` -/

/-- Python `np.pad(a, p)`: surround `a` with a zero border of width `p` on
all four sides. -/
def np_pad (a : Arr2) (p : ℕ) : Arr2 :=
  ⟨a.rows + 2 * p, a.cols + 2 * p, fun i j =>
    if p ≤ i ∧ i < p + a.rows ∧ p ≤ j ∧ j < p + a.cols
    then a.val (i - p) (j - p) else 0⟩

/-- Python `Board.intialise_board` (Board.py lines 41 to 70) in the default
`sparse` initialisation mode: the `grid_size × grid_size` draw of
`scipy.sparse.random(grid_size, grid_size, density=0.5).A` is modelled by
the abstract entry function `r` (its uniform data values lie in `[0, 1)`),
after which `if self.pad: self.board = np.pad(self.board, self.pad)`. -/
def intialise_board (grid_size : ℕ) (pad : ℕ) (r : ℕ → ℕ → ℚ) : Arr2 :=
  let b : Arr2 := ⟨grid_size, grid_size, r⟩
  if pad ≠ 0 then np_pad b pad else b

/-- Python `Board.__init__(grid_size, seed)`: fixes
`initialisation_type = sparse` and `pad = 32`, then builds the board.  The
seed only selects which random draw `r` occurs, so quantifying over `r`
covers every seed (including `None`). -/
def board_ctor (grid_size : ℕ) (r : ℕ → ℕ → ℚ) : Arr2 :=
  intialise_board grid_size 32 r

end Board

namespace SpecModel

/-! ## Definitions written from the words of the specification

Each definition below follows the wording of `spec.md` (never the source);
they exist to be compared against the source embeddings above. -/

open Automaton

/-- Follows the spec (§4.5, step 3): `clamp(x, lo, hi)`. -/
def spec_clamp (lo hi x : ℚ) : ℚ := max lo (min x hi)

/-- Follows the spec (§4.5): one step computes the neighbourhood-sum field
`U` by 2-D convolution with periodic (wrap) boundary and same-size output,
then `delta = growth(U)` elementwise, then
`grid = clamp(grid + dT * delta, 0, 1)` elementwise, with the clamp applied
once after the full additive update. -/
def spec_step {H W : ℕ} (board : ZMod H → ZMod W → ℚ)
    (kh kw : ℕ) (k : ℕ → ℕ → ℚ) (growth : ℚ → ℚ) (dT : ℚ) :
    ZMod H → ZMod W → ℚ :=
  fun x y =>
    let U := convolve2d_wrap board kh kw k x y
    let delta := growth U
    spec_clamp 0 1 (board x y + dT * delta)

/-- Follows the words of the claim for the bosco rule read as successive
bands: `1` if `b1 ≤ U < b2`, otherwise `-1` if `U < s1` or `U ≥ s2`,
otherwise `0`. -/
def growth_bosco_spec (b1 b2 s1 s2 U : ℚ) : ℚ :=
  if b1 ≤ U ∧ U < b2 then 1
  else if U < s1 ∨ s2 ≤ U then -1
  else 0

/-- Follows the classic Game of Life rule table quoted by the claim: a live
cell with 2 or 3 live neighbours stays `1`, a dead cell with exactly 3 live
neighbours becomes `1`, every other cell becomes `0` (for a binary cell
value this is: `1` when `n = 3`, the old value when `n = 2`, else `0`). -/
def life_rule (alive n : ℚ) : ℚ :=
  if n = 3 then 1 else if n = 2 then alive else 0

/-- Number of live cells among the 8 Moore neighbours of `(x, y)` on the
torus. -/
def moore_count {H W : ℕ} (board : ZMod H → ZMod W → ℚ)
    (x : ZMod H) (y : ZMod W) : ℚ :=
  board (x - 1) (y - 1) + board (x - 1) y + board (x - 1) (y + 1) +
  board x (y - 1) + board x (y + 1) +
  board (x + 1) (y - 1) + board (x + 1) y + board (x + 1) (y + 1)

end SpecModel

/-! ## Concrete objects used in witnesses and counterexamples -/

/-- A one-by-one kernel whose only weight is `0`: the smallest entirely-zero
kernel. -/
def zeroKernel : Arr2 := ⟨1, 1, fun _ _ => 0⟩

/-- The value of `Kernel().square_kernel(3, 1)`: the 3 × 3 Moore
neighbourhood, all ones with a zero centre. -/
def mooreKernel : Arr2 :=
  ⟨3, 3, fun i j => 1 - (if 1 ≤ i ∧ i < 1 + 1 ∧ 1 ≤ j ∧ j < 1 + 1 then 1 else 0)⟩

/-- A 4 × 4 torus holding a 2 × 2 block of live cells — a still life of the
Game of Life. -/
def blockBoard : ZMod 4 → ZMod 4 → ℚ :=
  fun x y => if (x = 0 ∨ x = 1) ∧ (y = 0 ∨ y = 1) then 1 else 0

/-- A constant board of value one half on the 1 × 1 torus. -/
def constHalf : ZMod 1 → ZMod 1 → ℚ := fun _ _ => 1/2

/-- The 1 × 1 kernel function with weight `1` (already normalised). -/
def oneK : ℕ → ℕ → ℚ := fun _ _ => 1

/-- A constant random draw of value one half, modelling one outcome of the
sparse initialisation. -/
def halfR : ℕ → ℕ → ℚ := fun _ _ => 1/2

/-- A 1 × 1 kernel with the single weight `2`: a concrete kernel of positive
raw sum. -/
def twoKernel : Arr2 := ⟨1, 1, fun _ _ => 2⟩

/-! ## Helper lemmas -/

/-- Two arrays with the same dimensions and entries are equal. -/
lemma arr2_ext {a b : Arr2} (hr : a.rows = b.rows) (hc : a.cols = b.cols)
    (hv : ∀ i j, a.val i j = b.val i j) : a = b := by
  cases a; cases b
  simp only [Arr2.mk.injEq]
  exact ⟨hr, hc, funext fun i => funext fun j => hv i j⟩

/-- Normalising a kernel of nonzero raw sum yields weights that sum to `1`. -/
lemma normalised_sum (k : Arr2) (h : k.sum ≠ 0) :
    (Automaton.normalised k).sum = 1 := by
  unfold Arr2.sum Automaton.normalised at *
  simp only [one_mul, div_eq_mul_inv, ← Finset.sum_mul]
  exact mul_inv_cancel₀ h

/-- The raw sum of the concrete kernel `twoKernel` is `2`. -/
lemma twoKernel_sum : twoKernel.sum = 2 := by
  simp [twoKernel, Arr2.sum]

/-! ## Claims -/

/-- C3, counterexample.  The claim reads the bosco rule as successive bands
(`1` on the growth band, else `-1` on the shrink band, else `0`) and asserts
`growth(0.3) = 1` and `growth(0.4) = 0` for the default parameters
`b1 = 0.25`, `b2 = 0.5`, `s1 = 0.375`, `s2 = 0.5`.  The code subtracts the
two band indicators, so at `U = 0.3` (inside both bands) it returns `0`,
not `1`, and at `U = 0.4` (growth band only) it returns `1`, not `0`. -/
theorem bosco_band_claim_counterexample :
    Growth_fn.growth_bosco Growth_fn.default_b1 Growth_fn.default_b2
        Growth_fn.default_s1 Growth_fn.default_s2 (3/10) ≠
      SpecModel.growth_bosco_spec Growth_fn.default_b1 Growth_fn.default_b2
        Growth_fn.default_s1 Growth_fn.default_s2 (3/10) ∧
    Growth_fn.growth_bosco Growth_fn.default_b1 Growth_fn.default_b2
        Growth_fn.default_s1 Growth_fn.default_s2 (3/10) = 0 ∧
    Growth_fn.growth_bosco Growth_fn.default_b1 Growth_fn.default_b2
        Growth_fn.default_s1 Growth_fn.default_s2 (4/10) = 1 := by
  refine ⟨?_, ?_, ?_⟩ <;>
    norm_num [Growth_fn.growth_bosco, SpecModel.growth_bosco_spec,
      Growth_fn.default_b1, Growth_fn.default_b2,
      Growth_fn.default_s1, Growth_fn.default_s2]

/-- C3, amended.  `growth_bosco` is the difference of the two band
indicators: it returns `1` exactly on growth-and-not-shrink, `-1` exactly on
shrink-and-not-growth, and `0` when both or neither band holds; for the
default parameters `b1 = 0.25, b2 = 0.5, s1 = 0.375, s2 = 0.5` it returns
`0` at `U = 0.3`, `-1` at `U = 0.1`, `-1` at `U = 0.6` and `1` at
`U = 0.4`. -/
theorem bosco_is_band_difference :
    (∀ b1 b2 s1 s2 U : ℚ,
      Growth_fn.growth_bosco b1 b2 s1 s2 U =
        if b1 ≤ U ∧ U < b2 then (if U < s1 ∨ s2 ≤ U then 0 else 1)
        else (if U < s1 ∨ s2 ≤ U then -1 else 0)) ∧
    Growth_fn.growth_bosco Growth_fn.default_b1 Growth_fn.default_b2
        Growth_fn.default_s1 Growth_fn.default_s2 (3/10) = 0 ∧
    Growth_fn.growth_bosco Growth_fn.default_b1 Growth_fn.default_b2
        Growth_fn.default_s1 Growth_fn.default_s2 (1/10) = -1 ∧
    Growth_fn.growth_bosco Growth_fn.default_b1 Growth_fn.default_b2
        Growth_fn.default_s1 Growth_fn.default_s2 (6/10) = -1 ∧
    Growth_fn.growth_bosco Growth_fn.default_b1 Growth_fn.default_b2
        Growth_fn.default_s1 Growth_fn.default_s2 (4/10) = 1 := by
  refine ⟨?_, ?_, ?_, ?_, ?_⟩
  · intro b1 b2 s1 s2 U
    unfold Growth_fn.growth_bosco
    split_ifs <;> norm_num
  all_goals
    norm_num [Growth_fn.growth_bosco,
      Growth_fn.default_b1, Growth_fn.default_b2,
      Growth_fn.default_s1, Growth_fn.default_s2]

/-- C5.  The claim (and spec §4.2, §7) requires normalisation of a zero-sum
kernel to raise `DegenerateKernelError`.  The code has no guard and no
`raise`: on the all-zero kernel it completes normally, returning the
(ill-defined) divided weights — in numpy these are NaN/Inf; in this model
the weights still sum to `0`, not `1`, so normalisation silently did
nothing meaningful.  Spec §9 itself records the unguarded division as a
latent defect of the reference code, so the code, not the claim, is wrong. -/
theorem normalise_zero_kernel_completes_silently :
    zeroKernel.sum = 0 ∧
    Automaton.normalise_kernel zeroKernel =
      Except.ok (Automaton.normalised zeroKernel, 1 / (1 * zeroKernel.sum)) ∧
    Automaton.normalise_kernel zeroKernel ≠
      Except.error PyErr.degenerateKernelError ∧
    (Automaton.normalised zeroKernel).sum = 0 := by
  refine ⟨by simp [zeroKernel, Arr2.sum], rfl,
    by simp [Automaton.normalise_kernel],
    by simp [Automaton.normalised, Arr2.sum, zeroKernel]⟩

/-- C6, counterexample.  At `outer_diameter = 3`, `inner_diameter = 2` (a
parity mismatch) the claim asserts that construction raises `ShapeError`.
Both `square_kernel` and `ring_kernel` instead print a message and complete
normally with `return None`: no exception is raised. -/
theorem kernel_shape_error_counterexample :
    Kernel.square_kernel 3 2 = Except.ok none ∧
    Kernel.square_kernel 3 2 ≠ Except.error PyErr.shapeError ∧
    Kernel.ring_kernel 3 2 = Except.ok none ∧
    Kernel.ring_kernel 3 2 ≠ Except.error PyErr.shapeError := by
  refine ⟨rfl, by simp [Kernel.square_kernel], rfl, by simp [Kernel.ring_kernel]⟩

/-- C6, amended.  For unequal parity or `outer ≤ inner`, `square_kernel`
fails fast by printing an error and returning `None` — no exception is
raised and no kernel (partial or otherwise) is returned; `ring_kernel`
fails the same way on a parity mismatch. -/
theorem invalid_kernel_params_return_none (o i : ℕ)
    (h : ¬ o % 2 = i % 2 ∨ o ≤ i) :
    Kernel.square_kernel o i = Except.ok none ∧
    (¬ o % 2 = i % 2 → Kernel.ring_kernel o i = Except.ok none) := by
  constructor
  · unfold Kernel.square_kernel
    rcases h with hp | hle
    · rw [if_pos hp]
    · by_cases hp : ¬ o % 2 = i % 2
      · rw [if_pos hp]
      · rw [if_neg hp, if_pos hle]
  · intro hp
    unfold Kernel.ring_kernel
    simp [hp]

/-- C6, witness for the amended theorem at the concrete pair `(3, 2)`. -/
theorem invalid_kernel_params_return_none_witness :
    (¬ 3 % 2 = 2 % 2 ∨ 3 ≤ 2) ∧
    (Kernel.square_kernel 3 2 = Except.ok none ∧
     (¬ 3 % 2 = 2 % 2 → Kernel.ring_kernel 3 2 = Except.ok none)) :=
  ⟨by decide, invalid_kernel_params_return_none 3 2 (by decide)⟩

/-- C7.  For a kernel of positive raw sum `S`, `normalise_kernel` returns
normally with every weight divided by `S`, the divided weights sum to
exactly `1` (exactness implies the floating tolerance of the claim), and
the retained `norm_factor` is `1/S`. -/
theorem normalise_pos_sum (k : Arr2) (h : 0 < k.sum) :
    Automaton.normalise_kernel k =
      Except.ok (Automaton.normalised k, 1 / k.sum) ∧
    (∀ i j, (Automaton.normalised k).val i j = k.val i j / k.sum) ∧
    (Automaton.normalised k).sum = 1 := by
  refine ⟨by unfold Automaton.normalise_kernel; rw [one_mul], ?_, ?_⟩
  · intro i j
    simp [Automaton.normalised]
  · exact normalised_sum k (ne_of_gt h)

/-- C7, witness at the concrete kernel `[[2]]`. -/
theorem normalise_pos_sum_witness :
    0 < twoKernel.sum ∧
    (Automaton.normalise_kernel twoKernel =
       Except.ok (Automaton.normalised twoKernel, 1 / twoKernel.sum) ∧
     (∀ i j, (Automaton.normalised twoKernel).val i j =
        twoKernel.val i j / twoKernel.sum) ∧
     (Automaton.normalised twoKernel).sum = 1) :=
  ⟨by rw [twoKernel_sum]; norm_num,
   normalise_pos_sum twoKernel (by rw [twoKernel_sum]; norm_num)⟩

/-- C8.  Normalisation is idempotent: re-normalising an already-normalised
kernel (raw sum positive) returns that kernel with its weights exactly
unchanged, and a `norm_factor` of `1` — so re-normalising on load is a
no-op. -/
theorem normalise_idempotent (k : Arr2) (h : 0 < k.sum) :
    Automaton.normalise_kernel (Automaton.normalised k) =
      Except.ok (Automaton.normalised k, 1) := by
  have hsum : (Automaton.normalised k).sum = 1 :=
    normalised_sum k (ne_of_gt h)
  have harr : Automaton.normalised (Automaton.normalised k) =
      Automaton.normalised k :=
    arr2_ext rfl rfl (fun i j => by
      show (Automaton.normalised k).val i j /
          (1 * (Automaton.normalised k).sum) = _
      rw [hsum]; ring)
  show Except.ok (Automaton.normalised (Automaton.normalised k),
      1 / (1 * (Automaton.normalised k).sum)) = _
  rw [harr, hsum]
  norm_num

/-- C8, witness at the concrete kernel `[[2]]`. -/
theorem normalise_idempotent_witness :
    0 < twoKernel.sum ∧
    Automaton.normalise_kernel (Automaton.normalised twoKernel) =
      Except.ok (Automaton.normalised twoKernel, 1) :=
  ⟨by rw [twoKernel_sum]; norm_num,
   normalise_idempotent twoKernel (by rw [twoKernel_sum]; norm_num)⟩


/-- Clipping to `[0,1]` as numpy does it (`min` outside) agrees with the
clamp of the spec (`max` outside). -/
lemma clip01_eq_clamp (x : ℚ) :
    Automaton.clip01 x = SpecModel.spec_clamp 0 1 x := by
  unfold Automaton.clip01 SpecModel.spec_clamp
  rcases le_total x 0 with h | h
  · rw [max_eq_right h, min_eq_left zero_le_one,
      min_eq_left (h.trans zero_le_one), max_eq_left h]
  · rw [max_eq_left h, max_eq_right (le_min h zero_le_one)]

/-- C1.  One call of `update_convolutional` replaces the board with
`clamp(board + dT * growth(U), 0, 1)` computed elementwise, where `U` is
the periodic (wrap) 2-D convolution of the board with the kernel with
same-size output (shape is preserved by construction: both sides are
functions on the same `ZMod H × ZMod W` index space), and the clamp is
applied once, after the full additive update. -/
theorem step_matches_spec_formula {H W : ℕ}
    (board : ZMod H → ZMod W → ℚ)
    (hb : ∀ x y, 0 ≤ board x y ∧ board x y ≤ 1)
    (kh kw : ℕ) (k : ℕ → ℕ → ℚ)
    (hk : (∑ p ∈ Finset.range kh, ∑ q ∈ Finset.range kw, k p q) = 1)
    (growth : ℚ → ℚ) (dT : ℚ) :
    Automaton.update_convolutional board kh kw k growth dT =
      SpecModel.spec_step board kh kw k growth dT := by
  funext x y
  exact clip01_eq_clamp _

/-- C1, witness at a concrete 1 × 1 board and normalised 1 × 1 kernel. -/
theorem step_matches_spec_formula_witness :
    (∀ x y : ZMod 1, 0 ≤ constHalf x y ∧ constHalf x y ≤ 1) ∧
    (∑ p ∈ Finset.range 1, ∑ q ∈ Finset.range 1, oneK p q) = 1 ∧
    Automaton.update_convolutional constHalf 1 1 oneK id 1 =
      SpecModel.spec_step constHalf 1 1 oneK id 1 :=
  ⟨fun x y => by norm_num [constHalf], by simp [oneK],
   step_matches_spec_formula constHalf
     (fun x y => by norm_num [constHalf]) 1 1 oneK (by simp [oneK]) id 1⟩

/-- C2.  For a board with all values in `[0,1]` and a normalised kernel,
every value of the board produced by one step lies in `[0,1]` again: the
final `np.clip` bounds every cell below by `0` and above by `1`. -/
theorem step_preserves_unit_interval {H W : ℕ}
    (board : ZMod H → ZMod W → ℚ)
    (hb : ∀ x y, 0 ≤ board x y ∧ board x y ≤ 1)
    (kh kw : ℕ) (k : ℕ → ℕ → ℚ)
    (hk : (∑ p ∈ Finset.range kh, ∑ q ∈ Finset.range kw, k p q) = 1)
    (growth : ℚ → ℚ) (dT : ℚ) :
    ∀ x y, 0 ≤ Automaton.update_convolutional board kh kw k growth dT x y ∧
      Automaton.update_convolutional board kh kw k growth dT x y ≤ 1 := by
  intro x y
  unfold Automaton.update_convolutional Automaton.clip01
  exact ⟨le_min (le_max_right _ _) zero_le_one, min_le_right _ _⟩

/-- C2, witness at a concrete 1 × 1 board and normalised 1 × 1 kernel. -/
theorem step_preserves_unit_interval_witness :
    (∀ x y : ZMod 1, 0 ≤ constHalf x y ∧ constHalf x y ≤ 1) ∧
    (∑ p ∈ Finset.range 1, ∑ q ∈ Finset.range 1, oneK p q) = 1 ∧
    (∀ x y : ZMod 1,
      0 ≤ Automaton.update_convolutional constHalf 1 1 oneK id 1 x y ∧
      Automaton.update_convolutional constHalf 1 1 oneK id 1 x y ≤ 1) :=
  ⟨fun x y => by norm_num [constHalf], by simp [oneK],
   step_preserves_unit_interval constHalf
     (fun x y => by norm_num [constHalf]) 1 1 oneK (by simp [oneK]) id 1⟩

/-- Convolving any board with the raw Moore kernel produced by
`square_kernel 3 1` computes exactly the toroidal 8-neighbour live count. -/
lemma conv_moore {H W : ℕ} (K : Arr2)
    (hK : Kernel.square_kernel 3 1 = Except.ok (some K))
    (board : ZMod H → ZMod W → ℚ) (x : ZMod H) (y : ZMod W) :
    Automaton.convolve2d_wrap board 3 3 K.val x y =
      SpecModel.moore_count board x y := by
  have hKm : K = mooreKernel := by
    have h2 : (Except.ok (some mooreKernel) : Except PyErr (Option Arr2)) =
        Except.ok (some K) := by
      rw [← hK]; rfl
    exact (Option.some.inj (Except.ok.inj h2)).symm
  subst hKm
  have ec : (((3 - 1) / 2 : ℕ) : ZMod H) = 1 := by norm_num
  have ec' : (((3 - 1) / 2 : ℕ) : ZMod W) = 1 := by norm_num
  have ha0 : ∀ a : ZMod H, a + 1 - ((0 : ℕ) : ZMod H) = a + 1 := by intro a; push_cast; ring
  have ha1 : ∀ a : ZMod H, a + 1 - ((1 : ℕ) : ZMod H) = a := by intro a; push_cast; ring
  have ha2 : ∀ a : ZMod H, a + 1 - ((2 : ℕ) : ZMod H) = a - 1 := by intro a; push_cast; ring
  have hb0 : ∀ a : ZMod W, a + 1 - ((0 : ℕ) : ZMod W) = a + 1 := by intro a; push_cast; ring
  have hb1 : ∀ a : ZMod W, a + 1 - ((1 : ℕ) : ZMod W) = a := by intro a; push_cast; ring
  have hb2 : ∀ a : ZMod W, a + 1 - ((2 : ℕ) : ZMod W) = a - 1 := by intro a; push_cast; ring
  unfold Automaton.convolve2d_wrap SpecModel.moore_count
  rw [ec, ec']
  simp only [Finset.sum_range_succ, Finset.sum_range_zero, ha0, ha1, ha2, hb0, hb1, hb2]
  norm_num [mooreKernel]
  ring

/-- On a binary board the Moore count is a natural number at most `8`. -/
lemma moore_count_nat {H W : ℕ} (board : ZMod H → ZMod W → ℚ)
    (hb : ∀ x y, board x y = 0 ∨ board x y = 1)
    (x : ZMod H) (y : ZMod W) :
    ∃ n : ℕ, n ≤ 8 ∧ SpecModel.moore_count board x y = (n : ℚ) := by
  have g : ∀ (a : ZMod H) (b : ZMod W), ∃ m : ℕ, m ≤ 1 ∧ board a b = (m : ℚ) := by
    intro a b
    rcases hb a b with h | h
    · exact ⟨0, by norm_num, by simp [h]⟩
    · exact ⟨1, by norm_num, by simp [h]⟩
  obtain ⟨m1, hm1, e1⟩ := g (x - 1) (y - 1)
  obtain ⟨m2, hm2, e2⟩ := g (x - 1) y
  obtain ⟨m3, hm3, e3⟩ := g (x - 1) (y + 1)
  obtain ⟨m4, hm4, e4⟩ := g x (y - 1)
  obtain ⟨m5, hm5, e5⟩ := g x (y + 1)
  obtain ⟨m6, hm6, e6⟩ := g (x + 1) (y - 1)
  obtain ⟨m7, hm7, e7⟩ := g (x + 1) y
  obtain ⟨m8, hm8, e8⟩ := g (x + 1) (y + 1)
  refine ⟨m1 + m2 + m3 + m4 + m5 + m6 + m7 + m8, by omega, ?_⟩
  unfold SpecModel.moore_count
  rw [e1, e2, e3, e4, e5, e6, e7, e8]
  push_cast
  ring

/-- Pointwise: clipping `b + 1 * growth_conway U` reproduces the classic
rule-table outcome for a binary cell `b` and a neighbour count `U ≤ 8`. -/
lemma conway_cell (b U : ℚ) (hb : b = 0 ∨ b = 1)
    (n : ℕ) (hn8 : n ≤ 8) (hU : U = (n : ℚ)) :
    Automaton.clip01 (b + 1 * Growth_fn.growth_conway U) =
      SpecModel.life_rule b U := by
  subst hU
  interval_cases n <;> rcases hb with h | h <;> subst h <;>
    norm_num [Growth_fn.growth_conway, SpecModel.life_rule, Automaton.clip01]

/-- C4, amended.  With the raw (unnormalised) `square_kernel(3,1)` Moore
kernel, the conway growth function, `dT = 1` and a binary board, the update
`clip(board + growth(conv(board, kernel)))` reproduces the classic Game of
Life rule table exactly for every neighbour count: a live cell with 2 or 3
live neighbours stays `1`, a dead cell with exactly 3 live neighbours
becomes `1`, every other cell becomes `0`.  One *engine* step, however,
first normalises the kernel (weights `1/8`), after which the rule table is
not reproduced — see the counterexample. -/
theorem conway_raw_kernel_step_is_life {H W : ℕ} (K : Arr2)
    (hK : Kernel.square_kernel 3 1 = Except.ok (some K))
    (board : ZMod H → ZMod W → ℚ)
    (hb : ∀ x y, board x y = 0 ∨ board x y = 1) :
    Automaton.update_convolutional board 3 3 K.val Growth_fn.growth_conway 1 =
      fun x y =>
        SpecModel.life_rule (board x y) (SpecModel.moore_count board x y) := by
  funext x y
  obtain ⟨n, hn8, hU⟩ := moore_count_nat board hb x y
  show Automaton.clip01 _ = _
  rw [conv_moore K hK board x y]
  exact conway_cell (board x y) _ (hb x y) n hn8 hU

/-- Convolution is homogeneous: dividing every kernel weight by a constant
divides the convolution by that constant. -/
lemma conv_div {H W : ℕ} (board : ZMod H → ZMod W → ℚ) (kh kw : ℕ)
    (k : ℕ → ℕ → ℚ) (c : ℚ) (x : ZMod H) (y : ZMod W) :
    Automaton.convolve2d_wrap board kh kw (fun p q => k p q / c) x y =
      Automaton.convolve2d_wrap board kh kw k x y / c := by
  unfold Automaton.convolve2d_wrap
  rw [Finset.sum_div]
  refine Finset.sum_congr rfl fun p _ => ?_
  rw [Finset.sum_div]
  refine Finset.sum_congr rfl fun q _ => ?_
  ring

/-- The raw Moore kernel weighs `8`. -/
lemma mooreKernel_sum : mooreKernel.sum = 8 := by
  simp only [mooreKernel, Arr2.sum, Finset.sum_range_succ, Finset.sum_range_zero]
  norm_num

/-- The corner cell of the 2 × 2 block has exactly 3 live neighbours. -/
lemma blockBoard_moore_count : SpecModel.moore_count blockBoard 0 0 = 3 := by
  have v1 : blockBoard (0 - 1) (0 - 1) = 0 := by
    simp only [blockBoard]; exact if_neg (by decide)
  have v2 : blockBoard (0 - 1) 0 = 0 := by
    simp only [blockBoard]; exact if_neg (by decide)
  have v3 : blockBoard (0 - 1) (0 + 1) = 0 := by
    simp only [blockBoard]; exact if_neg (by decide)
  have v4 : blockBoard 0 (0 - 1) = 0 := by
    simp only [blockBoard]; exact if_neg (by decide)
  have v5 : blockBoard 0 (0 + 1) = 1 := by
    simp only [blockBoard]; exact if_pos (by decide)
  have v6 : blockBoard (0 + 1) (0 - 1) = 0 := by
    simp only [blockBoard]; exact if_neg (by decide)
  have v7 : blockBoard (0 + 1) 0 = 1 := by
    simp only [blockBoard]; exact if_pos (by decide)
  have v8 : blockBoard (0 + 1) (0 + 1) = 1 := by
    simp only [blockBoard]; exact if_pos (by decide)
  unfold SpecModel.moore_count
  rw [v1, v2, v3, v4, v5, v6, v7, v8]
  norm_num

/-- C4, counterexample.  One engine step normalises `square_kernel(3,1)`
to weights `1/8`, so the neighbourhood sums lie in `[0,1]` and
`growth_conway` returns `-1` everywhere on them: at the live corner `(0,0)`
of a still-life 2 × 2 block (3 live neighbours) the engine step yields `0`
while the classic rule table requires `1`. -/
theorem conway_engine_step_counterexample :
    Kernel.square_kernel 3 1 = Except.ok (some mooreKernel) ∧
    Automaton.update_convolutional blockBoard 3 3
      (Automaton.normalised mooreKernel).val Growth_fn.growth_conway 1 0 0 = 0 ∧
    SpecModel.life_rule (blockBoard 0 0) (SpecModel.moore_count blockBoard 0 0) = 1 := by
  have hb00 : blockBoard 0 0 = 1 := by
    simp only [blockBoard]; exact if_pos (by decide)
  have hv : (Automaton.normalised mooreKernel).val =
      fun p q => mooreKernel.val p q / (1 * mooreKernel.sum) := rfl
  have hconv : Automaton.convolve2d_wrap blockBoard 3 3
      (Automaton.normalised mooreKernel).val 0 0 = 3 / 8 := by
    rw [hv, conv_div, conv_moore mooreKernel rfl blockBoard 0 0,
      blockBoard_moore_count, mooreKernel_sum]
    norm_num
  refine ⟨rfl, ?_, ?_⟩
  · show Automaton.clip01 _ = 0
    rw [hconv, hb00]
    norm_num [Growth_fn.growth_conway, Automaton.clip01]
  · rw [hb00, blockBoard_moore_count]
    norm_num [SpecModel.life_rule]

/-- C4, witness for the amended theorem on the concrete 2 × 2 block board. -/
theorem conway_raw_kernel_step_is_life_witness :
    Kernel.square_kernel 3 1 = Except.ok (some mooreKernel) ∧
    (∀ x y : ZMod 4, blockBoard x y = 0 ∨ blockBoard x y = 1) ∧
    Automaton.update_convolutional blockBoard 3 3 mooreKernel.val
        Growth_fn.growth_conway 1 =
      fun x y =>
        SpecModel.life_rule (blockBoard x y)
          (SpecModel.moore_count blockBoard x y) :=
  ⟨rfl, fun x y => by simp only [blockBoard]; split_ifs <;> simp,
   conway_raw_kernel_step_is_life mooreKernel rfl blockBoard
     (fun x y => by simp only [blockBoard]; split_ifs <;> simp)⟩

/-- The distance from the kernel centre `(8, 8)` to the cell `(8, 16)` of
the diameter-16 smooth ring grid is `8`. -/
lemma sqrt_64 : Real.sqrt ((((8:ℕ):ℝ) - ((16:ℕ):ℝ)/2)^2 + (((16:ℕ):ℝ) - ((16:ℕ):ℝ)/2)^2) = 8 := by
  have h : (((8:ℕ):ℝ) - ((16:ℕ):ℝ)/2)^2 + (((16:ℕ):ℝ) - ((16:ℕ):ℝ)/2)^2 = 8^2 := by
    norm_num
  rw [h, Real.sqrt_sq (by norm_num : (0:ℝ) ≤ 8)]

/-- C9, counterexample.  At `diameter = 16` (defaults `mu = 0.5`,
`sigma = 0.15`) and the cell `(8, 16)`, the distance from the centre is
exactly `diameter/2 = 8`, so the claim (normalisation at radius
`diameter/2`) puts `D = 1` and demands the value `0`; the code normalises
at `R = diameter/2 + 1 = 9`, giving `D = 8/9 < 1` and the strictly positive
value `exp(-(8/9 - 1/2)^2 / (2 * (3/20)^2))`. -/
theorem smooth_ring_radius_counterexample :
    Kernel.smooth_ring_val 16 (1/2) (3/20) 8 16 ≠
      Kernel.smooth_ring_spec_val 16 (1/2) (3/20) 8 16 ∧
    Kernel.smooth_ring_spec_val 16 (1/2) (3/20) 8 16 = 0 := by
  have hspec : Kernel.smooth_ring_spec_val 16 (1/2) (3/20) 8 16 = 0 := by
    simp only [Kernel.smooth_ring_spec_val]
    rw [sqrt_64, if_neg (by norm_num)]
  have hcode : 0 < Kernel.smooth_ring_val 16 (1/2) (3/20) 8 16 := by
    simp only [Kernel.smooth_ring_val, Kernel.gaussian_bell]
    rw [sqrt_64, if_pos (by norm_num), one_mul]
    exact Real.exp_pos _
  exact ⟨by rw [hspec]; exact hcode.ne', hspec⟩

/-- C9, amended.  The smooth-ring kernel has value
`exp(-(D - mu)^2 / (2 * sigma^2))` at every cell where `D < 1` and `0` at
every cell where `D ≥ 1`, where `D` is the Euclidean distance of the cell
from the kernel centre `(d/2, d/2)` normalised at radius `d/2 + 1` (not
`d/2`); the grid has `d + 1` samples per axis. -/
theorem smooth_ring_value_corrected :
    ∀ (d : ℕ) (mu sigma : ℝ) (i j : ℕ),
      Kernel.smooth_ring_val d mu sigma i j =
        (let D := Real.sqrt (((i:ℝ) - (d:ℝ)/2)^2 + ((j:ℝ) - (d:ℝ)/2)^2) /
            ((d:ℝ)/2 + 1)
         if D < 1 then Real.exp (-((D - mu)^2 / (2*sigma^2))) else 0) := by
  intro d mu sigma i j
  simp only [Kernel.smooth_ring_val, Kernel.gaussian_bell]
  split_ifs with h
  · rw [one_mul]
  · rw [zero_mul]


/-- C10.  For every `grid_size ≥ 1` and every random draw `r` with values
in `[0, 1)` (covering every seed, including none), the Board constructor
appends a zero border of width 32 on all four sides: the board has shape
`(grid_size + 64, grid_size + 64)`, every border cell is exactly `0`, the
interior `grid_size × grid_size` block holds the sparse-random
initialisation `r`, and every value lies in `[0, 1]`. -/
theorem board_ctor_zero_border (g : ℕ) (hg : 1 ≤ g) (r : ℕ → ℕ → ℚ)
    (hr : ∀ i < g, ∀ j < g, 0 ≤ r i j ∧ r i j < 1) :
    (Board.board_ctor g r).rows = g + 64 ∧
    (Board.board_ctor g r).cols = g + 64 ∧
    (∀ i < g + 64, ∀ j < g + 64,
      (i < 32 ∨ 32 + g ≤ i ∨ j < 32 ∨ 32 + g ≤ j) →
        (Board.board_ctor g r).val i j = 0) ∧
    (∀ i < g, ∀ j < g,
      (Board.board_ctor g r).val (32 + i) (32 + j) = r i j) ∧
    (Board.board_ctor g r).valsIn 0 1 := by
  have hb : Board.board_ctor g r = Board.np_pad ⟨g, g, r⟩ 32 := rfl
  rw [hb]
  refine ⟨by show g + 2 * 32 = g + 64; omega,
          by show g + 2 * 32 = g + 64; omega, ?_, ?_, ?_⟩
  · intro i hi j hj hcase
    show (if 32 ≤ i ∧ i < 32 + g ∧ 32 ≤ j ∧ j < 32 + g
          then r (i - 32) (j - 32) else 0) = 0
    rw [if_neg (by omega)]
  · intro i hi j hj
    show (if 32 ≤ 32 + i ∧ 32 + i < 32 + g ∧ 32 ≤ 32 + j ∧ 32 + j < 32 + g
          then r (32 + i - 32) (32 + j - 32) else 0) = r i j
    rw [if_pos (by omega), Nat.add_sub_cancel_left, Nat.add_sub_cancel_left]
  · intro i hi j hj
    show 0 ≤ (if 32 ≤ i ∧ i < 32 + g ∧ 32 ≤ j ∧ j < 32 + g
              then r (i - 32) (j - 32) else 0) ∧
         (if 32 ≤ i ∧ i < 32 + g ∧ 32 ≤ j ∧ j < 32 + g
          then r (i - 32) (j - 32) else 0) ≤ 1
    split_ifs with hc
    · obtain ⟨h0, h1⟩ := hr (i - 32) (by omega) (j - 32) (by omega)
      exact ⟨h0, le_of_lt h1⟩
    · exact ⟨le_refl 0, zero_le_one⟩

/-- C10, witness at `grid_size = 1` with the constant one-half draw. -/
theorem board_ctor_zero_border_witness :
    1 ≤ 1 ∧
    (∀ i < 1, ∀ j < 1, 0 ≤ halfR i j ∧ halfR i j < 1) ∧
    ((Board.board_ctor 1 halfR).rows = 1 + 64 ∧
     (Board.board_ctor 1 halfR).cols = 1 + 64 ∧
     (∀ i < 1 + 64, ∀ j < 1 + 64,
       (i < 32 ∨ 32 + 1 ≤ i ∨ j < 32 ∨ 32 + 1 ≤ j) →
         (Board.board_ctor 1 halfR).val i j = 0) ∧
     (∀ i < 1, ∀ j < 1,
       (Board.board_ctor 1 halfR).val (32 + i) (32 + j) = halfR i j) ∧
     (Board.board_ctor 1 halfR).valsIn 0 1) :=
  ⟨le_refl 1, fun i _ j _ => by norm_num [halfR],
   board_ctor_zero_border 1 (le_refl 1) halfR
     (fun i _ j _ => by norm_num [halfR])⟩
